import Mathlib

/-!
Shallow embedding of the retrieval engine of this repository
(`src/rag_engine.py`, plus the `build_context` context builder that
`src/app.py` calls).

Modelling conventions:
* Python strings are `List Char` (`Str`).
* Python machine floats (embedding coordinates, similarity scores) are
  modelled as exact `Int` values; the L2-normalisation performed by
  `faiss.normalize_L2` (which needs a square root) is abstracted as an
  explicit function parameter `nrm`.  None of the properties proved below
  depend on the numeric values of scores, only on their order and on the
  index bookkeeping of the search.
* The embedding model (`SentenceTransformer.encode`) is an explicit
  function parameter; a batch encode that can fail (e.g. out of memory)
  is a parameter returning `Option`.
* Python exceptions are `Except`/error codes; state mutation is explicit
  state passing on the `RAGEngine` structure.
-/

/-- Python strings, modelled as lists of characters. -/
abbrev Str := List Char

/-- Convenience: view a Lean string literal as a `Str`. -/
def strOf (x : String) : Str := x.data

/-- Helper for `pySplit`: walks the character list, accumulating the
current (reversed) word in `acc`; whitespace flushes the word.  This is
the semantics of Python's `str.split()` with no arguments: maximal runs
of non-whitespace characters, empty pieces dropped. -/
def pySplitAux : List Char → List Char → List Str
  | [], acc => if acc.isEmpty then [] else [acc.reverse]
  | c :: cs, acc =>
    if c.isWhitespace then
      if acc.isEmpty then pySplitAux cs [] else acc.reverse :: pySplitAux cs []
    else pySplitAux cs (c :: acc)

/-- Python `text.split()` (no separator argument): split on runs of
whitespace, dropping empty pieces (`src/rag_engine.py` line 43). -/
def pySplit (text : Str) : List Str := pySplitAux text []

/-- Python `sep.join(ws)`: the pieces joined with separator `sep`
between consecutive pieces. -/
def joinSep (sep : Str) : List Str → Str
  | [] => []
  | [w] => w
  | w :: ws => w ++ sep ++ joinSep sep ws

/-- Python truthiness of `chunk.strip()`: non-empty after stripping
whitespace, i.e. the string contains at least one non-whitespace
character (`src/rag_engine.py` line 48). -/
def hasNonWs (s : Str) : Bool := s.any (fun c => !c.isWhitespace)

/-- Python `range(0, n, s)` for a positive step `s`: the multiples of `s`
below `n`; there are `⌈n / s⌉ = (n + s - 1) / s` of them. -/
def pyRange0Nat (n s : Nat) : List Nat :=
  (List.range ((n + s - 1) / s)).map (· * s)

/-- Python `range(0, n, step)` for an arbitrary integer step and
`n ≥ 0`: positive steps count up; a negative step yields the empty
range (stop `n ≥ 0` is not below start `0`).  A zero step is handled
separately by the caller because Python raises `ValueError`. -/
def pyRange0 (n : Nat) (step : Int) : List Nat :=
  if 0 < step then pyRange0Nat n step.toNat else []

/-- The exception `chunk_text` can raise: `range()` called with a zero
step (`chunk_size - chunk_overlap == 0`) raises `ValueError`. -/
inductive ChunkError where
  | rangeStepZero
deriving DecidableEq

/-- Model of `RAGEngine.chunk_text` (`src/rag_engine.py` lines 40–52): split the
text into words, slide a window of `chunk_size` words advancing by
`chunk_size - chunk_overlap`, join each window with single spaces, and
keep the windows whose text is non-empty after stripping. -/
def chunk_text (chunk_size chunk_overlap : Int) (text : Str) :
    Except ChunkError (List Str) :=
  let words := pySplit text
  let step := chunk_size - chunk_overlap
  if step = 0 then Except.error ChunkError.rangeStepZero
  else
    Except.ok (((pyRange0 words.length step).map
      (fun i => joinSep [' '] ((words.drop i).take chunk_size.toNat))).filter hasNonWs)

/-- A PDF document as the extractor sees it: `none` when `fitz.open`
raises (corrupt/unreadable file); otherwise the list of per-page
extraction outcomes (`Except.error` marks a page whose `get_text`
raises, aborting the page loop there). -/
abbrev PDFDoc := Option (List (Except Unit Str))

/-- The page loop of `extract_text_from_pdf`: accumulate page text with
`text += page.get_text()`; an exception stops the loop, and the
`except` clause returns the text accumulated so far. -/
def extractPages (acc : Str) : List (Except Unit Str) → Str
  | [] => acc
  | Except.ok t :: rest => extractPages (acc ++ t) rest
  | Except.error _ :: _ => acc

/-- Model of `RAGEngine.extract_text_from_pdf` (`src/rag_engine.py` lines
20–38): every exception is caught inside the method, which always
returns the text accumulated before the failure (the empty string when
the file cannot even be opened). -/
def extract_text_from_pdf (doc : PDFDoc) : Str :=
  match doc with
  | none => []
  | some pages => extractPages [] pages

/-- The observable state of a `RAGEngine` instance: configuration plus
the `chunks` / `embeddings` / `index` triple (`src/rag_engine.py` lines
8–13).  The FAISS index is modelled as the list of vectors it stores. -/
structure RAGEngine where
  chunk_size : Int
  chunk_overlap : Int
  chunks : List Str
  embeddings : Option (List (List Int))
  index : Option (List (List Int))
deriving DecidableEq

/-- Model of `RAGEngine.__init__`: empty chunk list, no embeddings, no index. -/
def RAGEngine.init (cs co : Int) : RAGEngine :=
  { chunk_size := cs, chunk_overlap := co,
    chunks := [], embeddings := none, index := none }

/-- The `"\n\n"` separator `process_pdfs` prepends to each document's
text. -/
def nl2 : Str := ['\n', '\n']

/-- Exceptions `process_pdfs` can raise: the `range` `ValueError` from
`chunk_text`, the explicit `ValueError("No text extracted from
PDFs.")`, and a failure inside `embedding_model.encode` (e.g. resource
exhaustion). -/
inductive ProcessError where
  | rangeStepZero
  | noText
  | embeddingFailure
deriving DecidableEq

/-- Model of `RAGEngine.process_pdfs` (`src/rag_engine.py` lines 54–89),
with explicit state passing.  `encodeList` models
`embedding_model.encode` on the chunk batch (`none` = the call
raises); `nrm` models `faiss.normalize_L2` on one row.  The returned
pair is (state observable after the call, exception raised if any);
field assignments executed before an exception persist, exactly as in
Python. -/
def process_pdfs (encodeList : List Str → Option (List (List Int)))
    (nrm : List Int → List Int) (st : RAGEngine) (docs : List PDFDoc) :
    RAGEngine × Option ProcessError :=
  let all_text := docs.foldl (fun acc d => acc ++ nl2 ++ extract_text_from_pdf d) []
  match chunk_text st.chunk_size st.chunk_overlap all_text with
  | Except.error _ => (st, some ProcessError.rangeStepZero)
  | Except.ok cs =>
    let st1 := { st with chunks := cs }
    if cs.isEmpty then (st1, some ProcessError.noText)
    else
      match encodeList cs with
      | none => (st1, some ProcessError.embeddingFailure)
      | some embs =>
        let nembs := embs.map nrm
        let st2 := { st1 with embeddings := some nembs }
        ({ st2 with index := some nembs }, none)

/-- Inner product of two vectors (the score of `faiss.IndexFlatIP`). -/
def ip (a b : List Int) : Int := ((a.zip b).map fun p => p.1 * p.2).sum

/-- The sentinel score FAISS uses to pad result slots when `k` exceeds
the number of stored vectors: `-FLT_MAX = -(2^24 - 1) * 2^104`
(an exact integer). -/
def fltMaxNeg : Int := -((2 ^ 24 - 1) * 2 ^ 104)

/-- Insert a scored entry into a descending-sorted list, after any
entry with an equal or higher score (so equal scores keep the lower
vector index first, matching FAISS's deterministic tie order). -/
def insertDesc (x : Int × Int) : List (Int × Int) → List (Int × Int)
  | [] => [x]
  | y :: ys => if y.1 < x.1 then x :: y :: ys else y :: insertDesc x ys

/-- Stable sort by descending score. -/
def sortDesc (l : List (Int × Int)) : List (Int × Int) :=
  l.foldr insertDesc []

/-- Model of `index.search(query, k)` on a flat inner-product index: score every
stored vector, order descending by score (ties by lower index), take
the best `k`, and pad missing slots with `(-FLT_MAX, -1)` when fewer
than `k` vectors are stored. -/
def faissSearch (stored : List (List Int)) (q : List Int) (k : Nat) :
    List (Int × Int) :=
  let scored := (List.range stored.length).map
    (fun i => (ip q (stored.getD i []), (i : Int)))
  let top := (sortDesc scored).take k
  top ++ List.replicate (k - top.length) (fltMaxNeg, -1)

/-- Python list subscription `l[i]` with an integer index: negative
indices count from the end (`l[-1]` is the last element).  The claims
below only evaluate it where Python would not raise `IndexError`. -/
def pyGet (l : List Str) (i : Int) : Str :=
  if i < 0 then l.getD (l.length - (-i).toNat) [] else l.getD i.toNat []

/-- One element of the list `retrieve` returns:
`{'text': ..., 'score': ...}`. -/
structure RetrievalResult where
  text : Str
  score : Int
deriving DecidableEq

/-- Model of `RAGEngine.retrieve` (`src/rag_engine.py` lines 91–123): guard on a
missing index or empty chunk list, embed and normalise the query,
search the index, then keep the `(score, idx)` pairs passing
`idx < len(self.chunks)` and build a result from `self.chunks[idx]`
for each (the append loop is the filtered list mapped in order). -/
def retrieve (enc : Str → List Int) (nrm : List Int → List Int)
    (st : RAGEngine) (query : Str) (top_k : Nat) : List RetrievalResult :=
  match st.index with
  | none => []
  | some stored =>
    if st.chunks.isEmpty then []
    else
      let q := nrm (enc query)
      let sr := faissSearch stored q top_k
      (sr.filter (fun si => si.2 < (st.chunks.length : Int))).map
        (fun si => { text := pyGet st.chunks si.2, score := si.1 })

/-- Model of `RAGEngine.retrieve` with the engine state threaded explicitly, to
state frame conditions: the method reads `self.index` / `self.chunks` /
`self.embedding_model` but performs no field assignment, so the state
component of the result is the input state on every path. -/
def retrieve_st (enc : Str → List Int) (nrm : List Int → List Int)
    (st : RAGEngine) (query : Str) (top_k : Nat) :
    RAGEngine × List RetrievalResult :=
  match st.index with
  | none => (st, [])
  | some stored =>
    if st.chunks.isEmpty then (st, [])
    else
      let q := nrm (enc query)
      let sr := faissSearch stored q top_k
      (st, (sr.filter (fun si => si.2 < (st.chunks.length : Int))).map
        (fun si => { text := pyGet st.chunks si.2, score := si.1 }))

/-- Model of `RAGEngine.reset` (`src/rag_engine.py` lines 125–131). -/
def RAGEngine.reset (st : RAGEngine) : RAGEngine :=
  { st with chunks := [], embeddings := none, index := none }

/-- Helper for `build_context`: starting from an already-included
context `acc`, append each further ranked chunk in order, separated by
a blank line, as long as the total stays within `max_chars`; stop at
the first chunk that would overflow the budget. -/
def buildCtxAux (max_chars : Nat) (acc : Str) : List Str → Str
  | [] => acc
  | t :: rest =>
    let cand := acc ++ nl2 ++ t
    if cand.length ≤ max_chars then buildCtxAux max_chars cand rest else acc

/-- Modelled from the spec: `RAGEngine.build_context` is called by
`src/app.py` line 136 but is not defined in `src/rag_engine.py`; this
models the context-assembly contract of spec §4.5 — concatenate the
retrieved chunk texts in ranked order, separated by a blank-line
delimiter, truncating at a chunk boundary so the total length never
exceeds `max_chars`, except that the single highest-ranked chunk is
always included in full even when it alone exceeds the budget. -/
def build_context (ranked : List Str) (max_chars : Nat) : Str :=
  match ranked with
  | [] => []
  | t :: rest => buildCtxAux max_chars t rest

/-! ### Concrete inputs used by counterexamples and witnesses -/

/-- An encoder that always succeeds, mapping every chunk to the vector
`[1]`. -/
def encOk : List Str → Option (List (List Int)) := fun cs => some (cs.map (fun _ => [1]))

/-- An encoder whose batch call raises (models e.g. out-of-memory in
`embedding_model.encode`). -/
def encFail : List Str → Option (List (List Int)) := fun _ => none

/-- A readable one-page document whose text is `"a b"`. -/
def doc1 : PDFDoc := some [Except.ok (strOf "a b")]

/-- A readable one-page document whose text is `"c d"`. -/
def doc2 : PDFDoc := some [Except.ok (strOf "c d")]

/-- Engine state after one successful `process_pdfs` call on `doc1`
with window 2, overlap 0: one chunk `"a b"`, embeddings and index
built. -/
def stA : RAGEngine := (process_pdfs encOk id (RAGEngine.init 2 0) [doc1]).1

/-- Engine state observable after a second `process_pdfs` call on
`doc2` whose embedding step fails: the run starts from `stA`. -/
def stBad : RAGEngine := (process_pdfs encFail id stA [doc2]).1

/-- An engine holding exactly one chunk `"a"` and one stored vector,
as left by a successful single-chunk `process_pdfs`. -/
def c1_engine : RAGEngine :=
  { chunk_size := 500, chunk_overlap := 50, chunks := [strOf "a"],
    embeddings := some [[1]], index := some [[1]] }

/-- A text of exactly 1200 whitespace-separated words. -/
def text1200 : Str := joinSep [' '] (List.replicate 1200 (strOf "w"))

/-! ### Lemmas about `joinSep` -/

theorem joinSep_cons₂ (sep w x : Str) (ws : List Str) :
    joinSep sep (w :: x :: ws) = w ++ sep ++ joinSep sep (x :: ws) := rfl

theorem joinSep_append (sep : Str) (l₁ l₂ : List Str)
    (h₁ : l₁ ≠ []) (h₂ : l₂ ≠ []) :
    joinSep sep (l₁ ++ l₂) = joinSep sep l₁ ++ sep ++ joinSep sep l₂ := by
  induction l₁ with
  | nil => exact absurd rfl h₁
  | cons w ws ih =>
    cases ws with
    | nil =>
      cases l₂ with
      | nil => exact absurd rfl h₂
      | cons x xs => simp [joinSep]
    | cons x rest =>
      have : (x :: rest) ++ l₂ = x :: (rest ++ l₂) := rfl
      calc joinSep sep ((w :: x :: rest) ++ l₂)
          = w ++ sep ++ joinSep sep ((x :: rest) ++ l₂) := rfl
        _ = w ++ sep ++ (joinSep sep (x :: rest) ++ sep ++ joinSep sep l₂) := by
            rw [ih (by simp) ]
        _ = joinSep sep (w :: x :: rest) ++ sep ++ joinSep sep l₂ := by
            rw [joinSep_cons₂]; simp [List.append_assoc]

theorem mem_joinSep_head (sep w : Str) (ws : List Str) (c : Char)
    (hc : c ∈ w) : c ∈ joinSep sep (w :: ws) := by
  cases ws with
  | nil => exact hc
  | cons x rest =>
    rw [joinSep_cons₂]
    exact List.mem_append_left _ (List.mem_append_left _ hc)

theorem foldl_joinSep (l : List Str) : ∀ a : Str,
    List.foldl (fun x y => x ++ nl2 ++ y) a l = joinSep nl2 (a :: l) := by
  induction l with
  | nil => intro a; rfl
  | cons x xs ih =>
    intro a
    have h1 : List.foldl (fun x y => x ++ nl2 ++ y) a (x :: xs)
        = List.foldl (fun x y => x ++ nl2 ++ y) (a ++ nl2 ++ x) xs := rfl
    rw [h1, ih]
    cases xs with
    | nil => rfl
    | cons y ys => simp only [joinSep_cons₂, List.append_assoc]

/-! ### Lemmas about `pyRange0Nat` -/

theorem pyRange0Nat_zero (s : Nat) (hs : 0 < s) : pyRange0Nat 0 s = [] := by
  unfold pyRange0Nat
  have h : (0 + s - 1) / s = 0 := Nat.div_eq_of_lt (by omega)
  rw [h]; rfl

theorem pyRange0Nat_cons (n s : Nat) (hs : 0 < s) (hn : 0 < n) :
    pyRange0Nat n s = 0 :: (pyRange0Nat (n - s) s).map (· + s) := by
  unfold pyRange0Nat
  have key : (n + s - 1) / s = ((n - s) + s - 1) / s + 1 := by
    have h1 : n + s - 1 = (n - 1) + s := by omega
    rw [h1, Nat.add_div_right _ hs]
    rcases le_or_lt s n with h | h
    · have h2 : (n - s) + s - 1 = n - 1 := by omega
      rw [h2]
    · have h2 : n - s = 0 := by omega
      have e1 : (n - 1) / s = 0 := Nat.div_eq_of_lt (by omega)
      have e2 : (0 + s - 1) / s = 0 := Nat.div_eq_of_lt (by omega)
      rw [h2, e1, e2]
  rw [key, List.range_succ_eq_map]
  simp [List.map_map, Function.comp, Nat.succ_mul]

theorem mem_pyRange0Nat_lt (n s i : Nat) (hs : 0 < s)
    (hi : i ∈ pyRange0Nat n s) : i < n := by
  unfold pyRange0Nat at hi
  rcases List.mem_map.mp hi with ⟨j, hj, rfl⟩
  have hj' : j + 1 ≤ (n + s - 1) / s := List.mem_range.mp hj
  have := (Nat.le_div_iff_mul_le hs).mp hj'
  have hmul : (j + 1) * s = j * s + s := by ring
  omega

/-! ### The sliding windows of `chunk_text` cover the word list -/

theorem chunksCoverAux (sep : Str) (s : Nat) (hs : 0 < s) :
    ∀ (fuel : Nat) (l : List Str), l.length ≤ fuel →
    joinSep sep ((pyRange0Nat l.length s).map
      (fun i => joinSep sep ((l.drop i).take s))) = joinSep sep l := by
  intro fuel
  induction fuel with
  | zero =>
    intro l hl
    have : l = [] := List.eq_nil_of_length_eq_zero (by omega)
    subst this
    simp [pyRange0Nat_zero s hs]
  | succ fuel ih =>
    intro l hl
    rcases eq_or_ne l [] with rfl | hnil
    · simp [pyRange0Nat_zero s hs]
    · have hn : 0 < l.length := List.length_pos.mpr hnil
      rw [pyRange0Nat_cons l.length s hs hn]
      have hdrop0 : l.drop 0 = l := rfl
      have hld : (l.drop s).length = l.length - s := List.length_drop s l
      have hmaps : ((pyRange0Nat (l.length - s) s).map (· + s)).map
            (fun i => joinSep sep ((l.drop i).take s))
          = (pyRange0Nat ((l.drop s).length) s).map
            (fun i => joinSep sep (((l.drop s).drop i).take s)) := by
        rw [List.map_map, hld]
        apply List.map_congr_left
        intro i _
        simp only [Function.comp]
        rw [List.drop_drop, Nat.add_comm s i]
      have hrec := ih (l.drop s) (by omega)
      rcases le_or_lt l.length s with hle | hlt
      · have hempty : l.length - s = 0 := by omega
        rw [hempty, pyRange0Nat_zero s hs]
        simp only [List.map_cons, List.map_nil, hdrop0]
        rw [List.take_of_length_le hle]
        exact rfl
      · have hne : pyRange0Nat (l.length - s) s ≠ [] := by
          have hc : 1 ≤ (l.length - s + s - 1) / s :=
            (Nat.one_le_div_iff hs).mpr (by omega)
          unfold pyRange0Nat
          intro hcontra
          have hlen := congrArg List.length hcontra
          simp only [List.length_map, List.length_range, List.length_nil] at hlen
          omega
        rw [List.map_cons]
        have hrestne : (((pyRange0Nat (l.length - s) s).map (· + s)).map
            (fun i => joinSep sep ((l.drop i).take s))) ≠ [] := by
          simp only [ne_eq, List.map_eq_nil_iff]
          exact hne
        rcases List.exists_cons_of_ne_nil hrestne with ⟨r, rs, hr⟩
        rw [hr, joinSep_cons₂, ← hr, hmaps, hrec, hdrop0]
        have htake : l.take s ≠ [] :=
          List.length_pos.mp (by rw [List.length_take]; omega)
        have hdropne : l.drop s ≠ [] :=
          List.length_pos.mp (by rw [List.length_drop]; omega)
        rw [← joinSep_append sep (l.take s) (l.drop s) htake hdropne,
          List.take_append_drop]

theorem chunksCover (sep : Str) (s : Nat) (hs : 0 < s) (l : List Str) :
    joinSep sep ((pyRange0Nat l.length s).map
      (fun i => joinSep sep ((l.drop i).take s))) = joinSep sep l :=
  chunksCoverAux sep s hs l.length l (le_refl _)

/-! ### The words produced by `pySplit` are non-empty and
whitespace-free -/

theorem pySplitAux_valid : ∀ (cs : List Char) (acc : List Char),
    (∀ c ∈ acc, c.isWhitespace = false) →
    ∀ w ∈ pySplitAux cs acc, w ≠ [] ∧ ∀ c ∈ w, c.isWhitespace = false := by
  intro cs
  induction cs with
  | nil =>
    intro acc hacc w hw
    unfold pySplitAux at hw
    cases acc with
    | nil => simp at hw
    | cons a as =>
      simp only [List.isEmpty_cons, if_neg] at hw
      simp at hw
      subst hw
      refine ⟨by simp, ?_⟩
      intro c hc
      apply hacc
      have hc' : c ∈ (a :: as).reverse := by simpa using hc
      exact List.mem_reverse.mp hc'
  | cons c cs ih =>
    intro acc hacc w hw
    unfold pySplitAux at hw
    by_cases hws : c.isWhitespace = true
    · rw [if_pos hws] at hw
      cases acc with
      | nil =>
        simp only [List.isEmpty_nil, if_pos] at hw
        exact ih [] (by intro d hd; cases hd) w (by simpa using hw)
      | cons a as =>
        simp only [List.isEmpty_cons, Bool.false_eq_true, if_false] at hw
        rcases List.mem_cons.mp hw with rfl | hw
        · refine ⟨by simp, ?_⟩
          intro d hd
          exact hacc d (List.mem_reverse.mp hd)
        · exact ih [] (by intro d hd; cases hd) w hw
    · rw [if_neg hws] at hw
      refine ih (c :: acc) ?_ w hw
      intro d hd
      rcases List.mem_cons.mp hd with rfl | hd
      · simpa using hws
      · exact hacc d hd

theorem pySplit_valid (text : Str) :
    ∀ w ∈ pySplit text, w ≠ [] ∧ ∀ c ∈ w, c.isWhitespace = false :=
  pySplitAux_valid text [] (by intro c hc; cases hc)

/-- Every window `chunk_text` builds from a valid word list passes the
`chunk.strip()` truthiness test, because its first word contributes a
non-whitespace character. -/
theorem hasNonWs_window (l : List Str)
    (hval : ∀ w ∈ l, w ≠ [] ∧ ∀ c ∈ w, c.isWhitespace = false)
    (i s : Nat) (hi : i < l.length) (hs : 0 < s) :
    hasNonWs (joinSep [' '] ((l.drop i).take s)) = true := by
  have hdropne : l.drop i ≠ [] :=
    List.length_pos.mp (by rw [List.length_drop]; omega)
  rcases List.exists_cons_of_ne_nil hdropne with ⟨w, ws, hw⟩
  have htake : (l.drop i).take s = w :: ws.take (s - 1) := by
    rw [hw]
    cases s with
    | zero => omega
    | succ s => rw [List.take_succ_cons, Nat.add_sub_cancel]
  have hwmem : w ∈ l := by
    apply List.drop_subset i l
    rw [hw]
    exact List.mem_cons_self w ws
  obtain ⟨hwne, hwchars⟩ := hval w hwmem
  rcases List.exists_cons_of_ne_nil hwne with ⟨c0, crest, hc0⟩
  have hc0w : c0 ∈ w := by rw [hc0]; exact List.mem_cons_self _ _
  have hc0j : c0 ∈ joinSep [' '] ((l.drop i).take s) := by
    rw [htake]
    exact mem_joinSep_head [' '] w _ c0 hc0w
  unfold hasNonWs
  rw [List.any_eq_true]
  exact ⟨c0, hc0j, by simp [hwchars c0 hc0w]⟩

/-! ### Lemmas about `buildCtxAux` -/

theorem buildCtxAux_le (m : Nat) : ∀ (l : List Str) (acc : Str),
    acc.length ≤ m → (buildCtxAux m acc l).length ≤ m := by
  intro l
  induction l with
  | nil => intro acc h; exact h
  | cons t rest ih =>
    intro acc h
    unfold buildCtxAux
    by_cases hc : (acc ++ nl2 ++ t).length ≤ m
    · rw [if_pos hc]
      exact ih (acc ++ nl2 ++ t) hc
    · rw [if_neg hc]
      exact h

theorem buildCtxAux_gt (m : Nat) : ∀ (l : List Str) (acc : Str),
    m < acc.length → buildCtxAux m acc l = acc := by
  intro l
  induction l with
  | nil => intro acc _; rfl
  | cons t rest _ =>
    intro acc h
    unfold buildCtxAux
    rw [if_neg]
    intro hcontra
    rw [List.length_append, List.length_append] at hcontra
    omega

theorem buildCtxAux_take (m : Nat) : ∀ (l : List Str) (acc : Str),
    ∃ n, buildCtxAux m acc l
      = List.foldl (fun a t => a ++ nl2 ++ t) acc (l.take n) := by
  intro l
  induction l with
  | nil => intro acc; exact ⟨0, rfl⟩
  | cons t rest ih =>
    intro acc
    unfold buildCtxAux
    by_cases hc : (acc ++ nl2 ++ t).length ≤ m
    · rw [if_pos hc]
      rcases ih (acc ++ nl2 ++ t) with ⟨n, hn⟩
      exact ⟨n + 1, by rw [List.take_succ_cons]; exact hn⟩
    · rw [if_neg hc]
      exact ⟨0, rfl⟩

/-! ### Claim theorems -/

/-- C10: for every input text and every window size `W ≥ 1`, chunking
with overlap `0` partitions the word sequence in order: joining the
produced chunks with single spaces equals joining the
whitespace-split words of the input with single spaces. -/
theorem c10_zero_overlap_partition (text : Str) (W : Int) (hW : 1 ≤ W) :
    ∃ cs, chunk_text W 0 text = Except.ok cs ∧
      joinSep [' '] cs = joinSep [' '] (pySplit text) := by
  have hstep : ¬ (W - 0 = 0) := by omega
  have hpos : (0 : Int) < W - 0 := by omega
  have htoNat : 0 < (W - 0).toNat := by omega
  have hchunk : chunk_text W 0 text
      = Except.ok (((pyRange0Nat (pySplit text).length (W - 0).toNat).map
        (fun i => joinSep [' '] (((pySplit text).drop i).take W.toNat))).filter
          hasNonWs) := by
    unfold chunk_text pyRange0
    rw [if_neg hstep, if_pos hpos]
  have hval := pySplit_valid text
  have hall : ∀ chunk ∈ (pyRange0Nat (pySplit text).length (W - 0).toNat).map
      (fun i => joinSep [' '] (((pySplit text).drop i).take W.toNat)),
      hasNonWs chunk = true := by
    intro chunk hmem
    rcases List.mem_map.mp hmem with ⟨i, hi, rfl⟩
    have hilt : i < (pySplit text).length :=
      mem_pyRange0Nat_lt (pySplit text).length (W - 0).toNat i htoNat hi
    exact hasNonWs_window (pySplit text) hval i W.toNat hilt (by omega)
  refine ⟨_, hchunk, ?_⟩
  rw [List.filter_eq_self.mpr hall]
  have hWtoNat : (W - 0).toNat = W.toNat := by omega
  rw [hWtoNat]
  exact chunksCover [' '] W.toNat (by omega) (pySplit text)

/-- Witness for C10 at `text = "a b"`, `W = 1`. -/
theorem c10_zero_overlap_partition_witness :
    (1 : Int) ≤ 1 ∧ ∃ cs, chunk_text 1 0 (strOf "a b") = Except.ok cs ∧
      joinSep [' '] cs = joinSep [' '] (pySplit (strOf "a b")) :=
  ⟨le_refl 1, c10_zero_overlap_partition (strOf "a b") 1 (le_refl 1)⟩

/-- C5: the assembled context is a take-prefix of the ranked chunk
texts joined by the blank-line delimiter (chunks are fully included or
fully excluded, never sliced), and its length never exceeds
`max_chars` except when the single top-ranked chunk alone is longer
than `max_chars`, in which case the context is exactly that chunk,
included in full. -/
theorem c5_build_context_budget (ranked : List Str) (max_chars : Nat) :
    (∃ n, build_context ranked max_chars = joinSep nl2 (ranked.take n)) ∧
    ((build_context ranked max_chars).length ≤ max_chars ∨
      ∃ t rest, ranked = t :: rest ∧ max_chars < t.length ∧
        build_context ranked max_chars = t) := by
  cases ranked with
  | nil =>
    constructor
    · exact ⟨0, rfl⟩
    · left
      show ([] : Str).length ≤ max_chars
      simp
  | cons t rest =>
    constructor
    · rcases buildCtxAux_take max_chars rest t with ⟨n, hn⟩
      refine ⟨n + 1, ?_⟩
      show buildCtxAux max_chars t rest = _
      rw [hn, foldl_joinSep, List.take_succ_cons]
    · by_cases h : t.length ≤ max_chars
      · left
        exact buildCtxAux_le max_chars rest t h
      · right
        exact ⟨t, rest, rfl, by omega,
          buildCtxAux_gt max_chars rest t (by omega)⟩

/-- C7 (amended): when `chunk_overlap ≥ chunk_size`, the window step is
non-positive; `chunk_text` raises the `range` `ValueError` when the
step is exactly zero (`O = W`) and silently returns the empty chunk
list when the step is negative (`O > W`).  In neither case does it
loop. -/
theorem c7_overlap_ge_window (W O : Int) (text : Str) (h : W ≤ O) :
    chunk_text W O text
      = if O = W then Except.error ChunkError.rangeStepZero
        else Except.ok [] := by
  unfold chunk_text
  by_cases heq : O = W
  · have hz : W - O = 0 := by omega
    rw [if_pos hz, if_pos heq]
  · have hne : ¬(W - O = 0) := by omega
    have hneg : ¬((0 : Int) < W - O) := by omega
    rw [if_neg hne, if_neg heq]
    unfold pyRange0
    rw [if_neg hneg]
    rfl

/-- Witness for C7 at `W = 2`, `O = 3`, text `"a b c d"`: the chunker
silently returns an empty chunk list. -/
theorem c7_overlap_ge_window_witness :
    (2 : Int) ≤ 3 ∧ chunk_text 2 3 (strOf "a b c d")
      = if (3 : Int) = 2 then Except.error ChunkError.rangeStepZero
        else Except.ok [] :=
  ⟨by omega, c7_overlap_ge_window 2 3 (strOf "a b c d") (by omega)⟩

/-- C8: `retrieve` on an engine whose index is missing (no successful
`process_pdfs` ever completed, or after `reset`) or whose chunk list is
empty returns the empty result list as a normal value — the guard at
the top of the method short-circuits before any FAISS call. -/
theorem c8_retrieve_empty_guard (enc : Str → List Int)
    (nrm : List Int → List Int) (st : RAGEngine) (query : Str)
    (top_k : Nat) (h : st.index = none ∨ st.chunks = []) :
    retrieve enc nrm st query top_k = [] := by
  unfold retrieve
  rcases h with h | h
  · rw [h]
  · cases hidx : st.index with
    | none => rfl
    | some stored => simp [h]

/-- Witness for C8 on a freshly constructed engine. -/
theorem c8_retrieve_empty_guard_witness :
    ((RAGEngine.init 500 50).index = none ∨
      (RAGEngine.init 500 50).chunks = []) ∧
    retrieve (fun _ => [1]) id (RAGEngine.init 500 50) (strOf "q") 5 = [] :=
  ⟨Or.inl rfl,
    c8_retrieve_empty_guard (fun _ => [1]) id (RAGEngine.init 500 50)
      (strOf "q") 5 (Or.inl rfl)⟩

/-- C9: `retrieve` is read-only — threading the engine state through
the method returns the input state unchanged on every control path,
together with the same results as the pure `retrieve`. -/
theorem c9_retrieve_readonly (enc : Str → List Int)
    (nrm : List Int → List Int) (st : RAGEngine) (query : Str)
    (top_k : Nat) :
    retrieve_st enc nrm st query top_k
      = (st, retrieve enc nrm st query top_k) := by
  unfold retrieve retrieve_st
  cases hidx : st.index with
  | none => rfl
  | some stored =>
    by_cases h : st.chunks.isEmpty
    · simp [h]
    · simp [h]

/-- C2 (amended): when `process_pdfs` fails at any stage, the
`embeddings` and `index` fields keep their prior values, while the
`chunks` field may already hold the failed pass's chunk list (the
assignment on line 65 of `src/rag_engine.py` happens before the
failure points); `process_pdfs` performs no rollback. -/
theorem c2_failure_preserves_embeddings_index
    (encodeList : List Str → Option (List (List Int)))
    (nrm : List Int → List Int) (st : RAGEngine) (docs : List PDFDoc)
    (st' : RAGEngine) (err : ProcessError)
    (heq : process_pdfs encodeList nrm st docs = (st', some err)) :
    st'.embeddings = st.embeddings ∧ st'.index = st.index := by
  simp only [process_pdfs] at heq
  split at heq
  · simp only [Prod.mk.injEq] at heq
    obtain ⟨h1, -⟩ := heq
    subst h1
    exact ⟨rfl, rfl⟩
  · split at heq
    · simp only [Prod.mk.injEq] at heq
      obtain ⟨h1, -⟩ := heq
      subst h1
      exact ⟨rfl, rfl⟩
    · split at heq
      · simp only [Prod.mk.injEq] at heq
        obtain ⟨h1, -⟩ := heq
        subst h1
        exact ⟨rfl, rfl⟩
      · simp only [Prod.mk.injEq] at heq
        exact absurd heq.2 (by simp)

/-- C2 witness: a second `process_pdfs` whose embedding step fails,
run after the successful pass that built `stA`, keeps the prior
embeddings and index. -/
theorem c2_failure_preserves_embeddings_index_witness :
    process_pdfs encFail id stA [doc2]
      = (stBad, some ProcessError.embeddingFailure) ∧
    stBad.embeddings = stA.embeddings ∧ stBad.index = stA.index :=
  ⟨by decide,
    c2_failure_preserves_embeddings_index encFail id stA [doc2] stBad
      ProcessError.embeddingFailure (by decide)⟩

/-- C2 counterexample: after the failing second pass, the engine state
`stBad` is neither the prior state `stA` (its chunk list is the new
pass's) nor the empty state (its index is still the prior one): the
chunk list and the index come from different processing passes. -/
theorem c2_not_atomic_counterexample :
    ¬ (stBad = stA ∨
        (stBad.chunks = [] ∧ stBad.embeddings = none ∧
          stBad.index = none)) := by decide

/-- C3 (amended): for any text of exactly 1200 words, `chunk_text`
with window 250 and overlap 120 (step 130) produces exactly
`⌈1200 / 130⌉ = 10` chunks — one per start in
`range(0, 1200, 130)` — not the 9 of the claim's formula
`⌈(1200 - 250) / 130⌉ + 1`; every chunk is the join of a slice of at
most 250 consecutive words. -/
theorem c3_window_1200_words (text : Str)
    (h : (pySplit text).length = 1200) :
    ∃ cs, chunk_text 250 120 text = Except.ok cs ∧ cs.length = 10 ∧
      ∀ c ∈ cs, ∃ i,
        c = joinSep [' '] (((pySplit text).drop i).take 250) := by
  have hstep : ¬((250 : Int) - 120 = 0) := by omega
  have hpos : (0 : Int) < 250 - 120 := by omega
  have hchunk : chunk_text 250 120 text
      = Except.ok (((pyRange0Nat (pySplit text).length 130).map
          (fun i => joinSep [' ']
            (((pySplit text).drop i).take 250))).filter hasNonWs) := by
    have h130 : ((250 : Int) - 120).toNat = 130 := rfl
    have h250 : (250 : Int).toNat = 250 := rfl
    unfold chunk_text pyRange0
    rw [if_neg hstep, if_pos hpos, h130, h250]
  have hall : ∀ chunk ∈ (pyRange0Nat (pySplit text).length 130).map
      (fun i => joinSep [' '] (((pySplit text).drop i).take 250)),
      hasNonWs chunk = true := by
    intro chunk hmem
    rcases List.mem_map.mp hmem with ⟨i, hi, rfl⟩
    have hilt : i < (pySplit text).length :=
      mem_pyRange0Nat_lt (pySplit text).length 130 i (by norm_num) hi
    exact hasNonWs_window (pySplit text) (pySplit_valid text) i 250 hilt
      (by norm_num)
  refine ⟨_, hchunk, ?_, ?_⟩
  · rw [List.filter_eq_self.mpr hall, List.length_map]
    unfold pyRange0Nat
    rw [List.length_map, List.length_range, h]
  · intro c hc
    rw [List.filter_eq_self.mpr hall] at hc
    rcases List.mem_map.mp hc with ⟨i, hi, rfl⟩
    exact ⟨i, rfl⟩

set_option maxRecDepth 400000 in
/-- C3 witness: the concrete 1200-word text `text1200`. -/
theorem c3_window_1200_words_witness :
    (pySplit text1200).length = 1200 ∧
    ∃ cs, chunk_text 250 120 text1200 = Except.ok cs ∧ cs.length = 10 ∧
      ∀ c ∈ cs, ∃ i,
        c = joinSep [' '] (((pySplit text1200).drop i).take 250) :=
  ⟨by decide, c3_window_1200_words text1200 (by decide)⟩

set_option maxRecDepth 400000 in
/-- C3 counterexample: on the 1200-word document `text1200` the code
produces 10 chunks, not the 9 chunks the claim predicts. -/
theorem c3_chunk_count_counterexample :
    (chunk_text 250 120 text1200).toOption.map List.length = some 10 ∧
    ¬ (chunk_text 250 120 text1200).toOption.map List.length = some 9 :=
  ⟨by decide, by decide⟩

set_option maxRecDepth 10000 in
/-- C1: on an engine holding one chunk, `retrieve` with `top_k = 2`
returns two results: the FAISS search pads its second slot with index
`-1` (score `-FLT_MAX`), the guard `idx < len(self.chunks)` admits it,
and Python's `chunks[-1]` builds a result from the last chunk — a
result built from an index outside `[0, chunk_count)`, duplicating the
chunk with the sentinel score. -/
theorem c1_negative_index_result :
    retrieve (fun _ => [1]) id c1_engine (strOf "q") 2
      = [{ text := strOf "a", score := 1 },
         { text := strOf "a", score := fltMaxNeg }] := by decide

/-- C4: processing the two documents `doc1 = "a b"` and `doc2 = "c d"`
with window 3 and overlap 0 chunks the blind concatenation of all
documents: the first chunk `"a b c"` mixes words drawn from both
documents, and chunks carry no source or page metadata at all (they
are plain strings). -/
theorem c4_cross_document_chunk :
    (process_pdfs encOk id (RAGEngine.init 3 0) [doc1, doc2]).1.chunks
      = [strOf "a b c", strOf "d"] := by decide

/-- C6 helper: the page loop returns the accumulated text of the pages
read before the first failing page. -/
theorem extractPages_ok_error : ∀ (ok : List Str) (acc : Str)
    (tail : List (Except Unit Str)),
    extractPages acc (ok.map Except.ok ++ Except.error () :: tail)
      = acc ++ ok.flatten := by
  intro ok
  induction ok with
  | nil =>
    intro acc tail
    simp [extractPages]
  | cons t ts ih =>
    intro acc tail
    show extractPages (acc ++ t) (ts.map Except.ok ++ Except.error () :: tail)
      = acc ++ (t :: ts).flatten
    rw [ih]
    simp [List.append_assoc]

/-- C6 (amended): extraction never raises to the caller — a document
that cannot be opened yields the empty string as a normal return
value, and a failure while reading page `j` yields exactly the
concatenated text of the pages before `j`. -/
theorem c6_extraction_swallows_errors :
    extract_text_from_pdf none = ([] : Str) ∧
    ∀ (ok : List Str) (tail : List (Except Unit Str)),
      extract_text_from_pdf (some (ok.map Except.ok ++ Except.error () :: tail))
        = ok.flatten := by
  constructor
  · rfl
  · intro ok tail
    show extractPages [] (ok.map Except.ok ++ Except.error () :: tail)
      = ok.flatten
    rw [extractPages_ok_error]
    rfl

/-- C6 counterexample: a corrupt or unreadable document (the
`fitz.open` call raises) makes `extract_text_from_pdf` return the
empty string as a normal value — no `ExtractionError` reaches the
caller, refuting the claim that extraction never silently returns an
empty result for such a file. -/
theorem c6_corrupt_returns_empty :
    extract_text_from_pdf none = ([] : Str) := rfl

/-- C7 counterexample: with window 2 and overlap 3 (overlap greater
than window) on the text `"a b c d"`, `chunk_text` silently returns
the empty chunk list instead of failing fast with a configuration
error. -/
theorem c7_silent_empty_counterexample :
    chunk_text 2 3 (strOf "a b c d") = Except.ok [] := rfl
